import Mathlib

/-!
Shallow embedding of the batch-execution engine of
`smart-image-processor-mcp` (`src/services/BatchProcessor.ts`), together
with theorems settling the frozen claims about it.

Modelling conventions:
* JavaScript numbers that the engine produces by exact integer bookkeeping
  (counts, lengths, the `completed` counter) are `Nat`.
* `Math.round` applied to a quotient is modelled on `ℚ` as
  `jsRound q = ⌊q + 1/2⌋` (JS rounds half away from zero towards +∞ for the
  non-negative values arising here).
* `successful / results.length` with `results.length = 0` is `0/0 = NaN` in
  JS and `Math.round NaN = NaN`; the `successRate` field is therefore an
  `Option ℤ` with `none` playing the role of `NaN`.
* A thrown JavaScript value is modelled by `Thrown`: either an `Error`
  instance carrying its `message` string, or any other value together with
  its optional string-valued `message` property.
* The four operation providers (`ImageAnalyzer.analyze`, etc.) are opaque
  collaborators; they are modelled as an arbitrary `Providers` record whose
  fields return either a payload with its measured wall-clock duration, or
  a thrown value.  Wall-clock readings (`totalTime`) are likewise inputs.
* Within one concurrency window the dispatches may settle in any order;
  the settle order of each window is an explicit parameter (`orders`, one
  permutation of the window's indices per window), so that the
  order-independence asserted by the spec can be proved rather than baked in.
-/

/-- JS `Math.round` on an exact rational: round half towards +∞. -/
def jsRound (q : ℚ) : ℤ := ⌊q + 1 / 2⌋

/-- The integer percentage `Math.round((completed / total) * 100)`. -/
def pctOf (completed total : ℕ) : ℤ := jsRound ((completed : ℚ) / (total : ℚ) * 100)

/-- A thrown JavaScript value, as far as the engine inspects it:
an `Error` instance with its `message`, or any other value with its
(possibly absent) string `message` property. -/
inductive Thrown where
  | errorObj (msg : String)
  | other (msgProp : Option String)
deriving DecidableEq

/-- The `message` property of a thrown value (`reason?.message`). -/
def Thrown.msg : Thrown → Option String
  | .errorObj m => some m
  | .other m => m

/-- Error text used by `process`: `result.reason?.message || 'Unknown error'`
(an absent or empty — falsy — message falls back). -/
def processErrMsg (t : Thrown) : String :=
  match t.msg with
  | some m => if m = "" then "Unknown error" else m
  | none => "Unknown error"

/-- Error text used by `processWithProgress`:
`error instanceof Error ? error.message : 'Unknown error'`. -/
def progressErrMsg : Thrown → String
  | .errorObj m => m
  | .other _ => "Unknown error"

/-- The only field of the options bag the engine inspects is
`targetFormat`; `none` models an absent (or `null`/`undefined`) field,
`some ""` models the empty string (also falsy in JS). -/
structure Options where
  targetFormat : Option String
deriving DecidableEq

/-- The opaque operation providers.  Each call either fulfills with a
payload and its measured duration in milliseconds, or rejects with a
thrown value. -/
structure Providers (P : Type) where
  analyze : String → Options → Except Thrown (P × ℕ)
  compress : String → Options → Except Thrown (P × ℕ)
  convert : String → String → Options → Except Thrown (P × ℕ)
  extractColors : String → Options → Except Thrown (P × ℕ)

/-- `BatchProcessor.processSingle`: route one source to the provider
selected by `operation`, after pre-validating the `convert` case.
A `.error` value is the rejection of the returned promise. -/
def processSingle (prov : Providers P) (source : String) (operation : String)
    (options : Options) : Except Thrown (P × ℕ) :=
  match operation with
  | "analyze" => prov.analyze source options
  | "compress" => prov.compress source options
  | "convert" =>
    match options.targetFormat with
    | none => .error (.errorObj "targetFormat is required for convert operation")
    | some tf =>
      if tf = "" then .error (.errorObj "targetFormat is required for convert operation")
      else prov.convert source tf options
  | "extract_colors" => prov.extractColors source options
  | op => .error (.errorObj ("Unsupported operation: " ++ op))

/-- One entry of `BatchResult.results`. -/
structure ItemResult (P : Type) where
  source : String
  success : Bool
  result : Option P
  error : Option String
  processingTime : ℕ
deriving DecidableEq

/-- Turn the settled promise of one item into its `results` entry;
`errMsg` is the error-normalisation the calling entry point uses. -/
def settleWith (errMsg : Thrown → String) (prov : Providers P)
    (operation : String) (options : Options) (source : String) : ItemResult P :=
  match processSingle prov source operation options with
  | .ok (p, t) =>
    { source := source, success := true, result := some p, error := none,
      processingTime := t }
  | .error e =>
    { source := source, success := false, result := none,
      error := some (errMsg e), processingTime := 0 }

/-- Item outcome as recorded by `process` (via `Promise.allSettled`). -/
def settleItem (prov : Providers P) (operation : String) (options : Options)
    (source : String) : ItemResult P :=
  settleWith processErrMsg prov operation options source

/-- Item outcome as recorded by `processWithProgress` (in-closure try/catch). -/
def settleItemPW (prov : Providers P) (operation : String) (options : Options)
    (source : String) : ItemResult P :=
  settleWith progressErrMsg prov operation options source

/-- Fuel-indexed splitting of the remaining sources into windows of `c`,
mirroring `for (let i = 0; i < sources.length; i += concurrency)` with the
window `sources.slice(i, i + concurrency)`.  One unit of fuel per loop
iteration; `l.length` units suffice whenever `c ≥ 1` (each iteration
consumes at least one element).  The real loop does not terminate for
`c ≤ 0` on a non-empty list; that regime is modelled by `loopWindows`. -/
def windowsAux (c : ℕ) : ℕ → List α → List (List α)
  | 0, _ => []
  | _ + 1, [] => []
  | fuel + 1, l => if c = 0 then [] else l.take c :: windowsAux c fuel (l.drop c)

/-- The consecutive concurrency windows of the batch loop. -/
def windows (c : ℕ) (l : List α) : List (List α) :=
  windowsAux c l.length l

theorem windowsAux_flatten (c : ℕ) (hc : 1 ≤ c) :
    ∀ (fuel : ℕ) (l : List α), l.length ≤ fuel → (windowsAux c fuel l).flatten = l := by
  intro fuel
  induction fuel with
  | zero =>
    intro l hl
    have : l = [] := List.length_eq_zero.mp (Nat.le_zero.mp hl)
    simp [this, windowsAux]
  | succ n ih =>
    intro l hl
    cases l with
    | nil => simp [windowsAux]
    | cons a t =>
      have hc0 : c ≠ 0 := by omega
      have hdrop : ((a :: t).drop c).length ≤ n := by
        rw [List.length_drop]
        simp only [List.length_cons] at hl ⊢
        omega
      simp only [windowsAux, hc0, if_false, List.flatten_cons]
      rw [ih ((a :: t).drop c) hdrop]
      exact List.take_append_drop c (a :: t)

theorem windows_flatten (c : ℕ) (hc : 1 ≤ c) (l : List α) : (windows c l).flatten = l :=
  windowsAux_flatten c hc l.length l le_rfl

theorem windowsAux_length (c : ℕ) (hc : 1 ≤ c) :
    ∀ (fuel : ℕ) (l : List α), l.length ≤ fuel →
      (windowsAux c fuel l).length = (l.length + c - 1) / c := by
  have hz : (List.length ([] : List α) + c - 1) / c = 0 := by
    rw [List.length_nil, Nat.div_eq_of_lt (by omega)]
  intro fuel
  induction fuel with
  | zero =>
    intro l hl
    have : l = [] := List.length_eq_zero.mp (Nat.le_zero.mp hl)
    subst this
    rw [hz]
    simp [windowsAux]
  | succ n ih =>
    intro l hl
    cases l with
    | nil =>
      rw [hz]
      simp [windowsAux]
    | cons a t =>
      have hc0 : c ≠ 0 := by omega
      have hdrop : ((a :: t).drop c).length ≤ n := by
        rw [List.length_drop]
        simp only [List.length_cons] at hl ⊢
        omega
      simp only [windowsAux, hc0, if_false, List.length_cons]
      rw [ih _ hdrop, List.length_drop]
      simp only [List.length_cons]
      rcases Nat.le_total (t.length + 1) c with h | h
      · have h1 : t.length + 1 - c = 0 := by omega
        have h2 : (0 + c - 1) / c = 0 := Nat.div_eq_of_lt (by omega)
        have h3 : (t.length + 1 + c - 1) / c = 1 := by
          have e : t.length + 1 + c - 1 = t.length + c := by omega
          rw [e, Nat.add_div_right _ (by omega), Nat.div_eq_of_lt (by omega)]
        rw [h1, h2, h3]
      · have h1 : t.length + 1 - c + c - 1 = t.length + 1 - 1 := by omega
        have h2 : t.length + 1 + c - 1 = (t.length + 1 - 1) + c := by omega
        rw [h1, h2, Nat.add_div_right _ (by omega)]

/-- The loop runs `⌈l.length / c⌉` iterations, one window each. -/
theorem windows_length (c : ℕ) (hc : 1 ≤ c) (l : List α) :
    (windows c l).length = (l.length + c - 1) / c :=
  windowsAux_length c hc l.length l le_rfl

theorem windowsAux_mem (c : ℕ) (hc : 1 ≤ c) :
    ∀ (fuel : ℕ) (l : List α), l.length ≤ fuel →
      ∀ w ∈ windowsAux c fuel l, w ≠ [] ∧ w.length ≤ c := by
  intro fuel
  induction fuel with
  | zero =>
    intro l hl
    have : l = [] := List.length_eq_zero.mp (Nat.le_zero.mp hl)
    simp [this, windowsAux]
  | succ n ih =>
    intro l hl
    cases l with
    | nil => simp [windowsAux]
    | cons a t =>
      have hc0 : c ≠ 0 := by omega
      have hdrop : ((a :: t).drop c).length ≤ n := by
        rw [List.length_drop]
        simp only [List.length_cons] at hl ⊢
        omega
      simp only [windowsAux, hc0, if_false, List.mem_cons]
      rintro w (rfl | hw)
      · constructor
        · intro habs
          have := congrArg List.length habs
          simp only [List.length_take, List.length_cons, List.length_nil] at this
          omega
        · simp [List.length_take]
      · exact ih _ hdrop w hw

/-- Every window is non-empty and no window exceeds the concurrency bound. -/
theorem windows_mem (c : ℕ) (hc : 1 ≤ c) (l : List α) :
    ∀ w ∈ windows c l, w ≠ [] ∧ w.length ≤ c :=
  windowsAux_mem c hc l.length l le_rfl

/-- The `summary` block of a `BatchResult`.  `successRate` is `none` when
the JS computation produces `NaN` (division `0 / 0` on an empty batch). -/
structure Summary where
  totalTime : ℕ
  averageTime : ℤ
  successRate : Option ℤ
deriving DecidableEq

/-- The `BatchResult` record returned by both entry points. -/
structure BatchResult (P : Type) where
  totalProcessed : ℕ
  successful : ℕ
  failed : ℕ
  results : List (ItemResult P)
  summary : Summary
deriving DecidableEq

/-- The statistics block computed at the end of `process` and
`processWithProgress` from the collected `results` and the elapsed wall
time.  `Math.round((successful / results.length) * 100)` is `NaN` (here
`none`) when `results` is empty. -/
def aggregate (results : List (ItemResult P)) (totalTime : ℕ) : BatchResult P :=
  let successList := results.filter (fun r => r.success)
  let successful := successList.length
  let failed := results.length - successful
  let averageTime : ℚ :=
    if successful > 0 then
      ((successList.map (fun r => r.processingTime)).sum : ℚ) / (successful : ℚ)
    else 0
  let successRate : Option ℤ :=
    if results.length = 0 then none
    else some (jsRound ((successful : ℚ) / (results.length : ℚ) * 100))
  { totalProcessed := results.length
    successful := successful
    failed := failed
    results := results
    summary :=
      { totalTime := totalTime
        averageTime := jsRound averageTime
        successRate := successRate } }

/-- The window loop of `process`: each window's settled outcomes are
appended to the running collection in window (= input) order, exactly as
`Promise.allSettled` reports them. -/
def runBatches (prov : Providers P) (operation : String) (options : Options) :
    List (List String) → List (ItemResult P)
  | [] => []
  | w :: ws =>
    w.map (settleItem prov operation options) ++ runBatches prov operation options ws

/-- `BatchProcessor.process`.  `totalTime` is the wall-clock reading the
code takes with `Date.now()`; it is an input of the model. -/
def process (prov : Providers P) (sources : List String) (operation : String)
    (options : Options) (concurrency : ℕ) (totalTime : ℕ) : BatchResult P :=
  aggregate (runBatches prov operation options (windows concurrency sources)) totalTime

/-- One progress callback invocation. -/
structure ProgressEvent where
  completed : ℕ
  total : ℕ
  percentage : ℤ
deriving DecidableEq

/-- The progress events emitted while the items of one window settle in
the order given by `o` (one entry per settling item): each settlement
increments the shared `completed` counter and then reports it. -/
def eventsOf (n : ℕ) : ℕ → List ℕ → List ProgressEvent
  | _, [] => []
  | completed, _ :: rest =>
    { completed := completed + 1, total := n, percentage := pctOf (completed + 1) n } ::
      eventsOf n (completed + 1) rest

/-- `validOrders ws os` holds when `os` assigns to each window of `ws` a
settle order that is a permutation of that window's index range. -/
def validOrders : List (List String) → List (List ℕ) → Bool
  | [], [] => true
  | w :: ws, o :: os => (o.isPerm (List.range w.length) && validOrders ws os)
  | _, _ => false

/-- The window loop of `processWithProgress`: for each window (paired with
its settle order) the outcomes are collected by `Promise.all` in input
order, while the progress events fire in settle order, threading the
shared `completed` counter through the whole run. -/
def runPW (prov : Providers P) (operation : String) (options : Options) (n : ℕ) :
    List (List String × List ℕ) → ℕ → List (ItemResult P) × List ProgressEvent
  | [], _ => ([], [])
  | (w, o) :: rest, completed =>
    let wres := w.map (settleItemPW prov operation options)
    let evs := eventsOf n completed o
    let out := runPW prov operation options n rest (completed + o.length)
    (wres ++ out.1, evs ++ out.2)

/-- `BatchProcessor.processWithProgress`.  Besides the `BatchResult` it
returns the sequence of progress events delivered to `onProgress`.
`orders` gives the settle order of every window. -/
def processWithProgress (prov : Providers P) (sources : List String)
    (operation : String) (options : Options) (concurrency : ℕ)
    (orders : List (List ℕ)) (totalTime : ℕ) :
    BatchResult P × List ProgressEvent :=
  let out := runPW prov operation options sources.length
    ((windows concurrency sources).zip orders) 0
  (aggregate out.1 totalTime, out.2)

theorem settleWith_source (em : Thrown → String) (prov : Providers P)
    (operation : String) (options : Options) (s : String) :
    (settleWith em prov operation options s).source = s := by
  unfold settleWith
  rcases processSingle prov s operation options with e | ⟨p, t⟩ <;> rfl

theorem runBatches_eq (prov : Providers P) (operation : String) (options : Options) :
    ∀ ws : List (List String),
      runBatches prov operation options ws =
        ws.flatten.map (settleItem prov operation options) := by
  intro ws
  induction ws with
  | nil => rfl
  | cons w rest ih => simp [runBatches, ih, List.flatten_cons]

/-- The event delivered when the counter reaches `k` out of `n`. -/
def evAt (n k : ℕ) : ProgressEvent :=
  { completed := k, total := n, percentage := pctOf k n }

theorem eventsOf_spec (n : ℕ) :
    ∀ (o : List ℕ) (k : ℕ),
      eventsOf n k o = (List.range o.length).map (fun j => evAt n (k + j + 1)) := by
  intro o
  induction o with
  | nil => intro k; rfl
  | cons a rest ih =>
    intro k
    simp only [eventsOf, List.length_cons, List.range_succ_eq_map, List.map_cons,
      List.map_map]
    refine congrArg₂ List.cons ?_ ?_
    · show evAt n (k + 1) = evAt n (k + 0 + 1)
      rfl
    · rw [ih (k + 1)]
      refine List.map_congr_left ?_
      intro j hj
      show evAt n (k + 1 + j + 1) = evAt n (k + (j + 1) + 1)
      have : k + 1 + j + 1 = k + (j + 1) + 1 := by omega
      rw [this]

theorem runPW_spec (prov : Providers P) (operation : String) (options : Options)
    (n : ℕ) :
    ∀ (ws : List (List String)) (os : List (List ℕ)),
      validOrders ws os = true → ∀ k : ℕ,
        runPW prov operation options n (ws.zip os) k =
          (ws.flatten.map (settleItemPW prov operation options),
           (List.range ws.flatten.length).map (fun j => evAt n (k + j + 1))) := by
  intro ws
  induction ws with
  | nil =>
    intro os h k
    cases os with
    | nil => rfl
    | cons o os' => simp [validOrders] at h
  | cons w ws' ih =>
    intro os h k
    cases os with
    | nil => simp [validOrders] at h
    | cons o os' =>
      have h' : o.isPerm (List.range w.length) = true ∧ validOrders ws' os' = true := by
        simpa [validOrders, Bool.and_eq_true] using h
      have hlen : o.length = w.length := by
        have := (List.isPerm_iff.mp h'.1).length_eq
        simpa using this
      have hz : (w :: ws').zip (o :: os') = (w, o) :: ws'.zip os' := rfl
      rw [hz]
      show (w.map (settleItemPW prov operation options) ++
              (runPW prov operation options n (ws'.zip os') (k + o.length)).1,
            eventsOf n k o ++
              (runPW prov operation options n (ws'.zip os') (k + o.length)).2) = _
      rw [ih os' h'.2 (k + o.length)]
      refine Prod.ext ?_ ?_
      · show w.map _ ++ ws'.flatten.map _ = (w :: ws').flatten.map _
        rw [List.flatten_cons, List.map_append]
      · show eventsOf n k o ++ _ = _
        rw [eventsOf_spec, hlen, List.flatten_cons, List.length_append,
          List.range_add]
        dsimp only
        rw [List.map_append, List.map_map]
        refine congrArg₂ List.append rfl ?_
        refine List.map_congr_left ?_
        intro j hj
        show evAt n (k + w.length + j + 1) = evAt n (k + (w.length + j) + 1)
        have e : k + w.length + j + 1 = k + (w.length + j) + 1 := by omega
        rw [e]

theorem aggregate_results (rs : List (ItemResult P)) (tt : ℕ) :
    (aggregate rs tt).results = rs := rfl

theorem aggregate_totalProcessed (rs : List (ItemResult P)) (tt : ℕ) :
    (aggregate rs tt).totalProcessed = rs.length := rfl

theorem aggregate_successful (rs : List (ItemResult P)) (tt : ℕ) :
    (aggregate rs tt).successful = (rs.filter (fun r => r.success)).length := rfl

theorem aggregate_failed (rs : List (ItemResult P)) (tt : ℕ) :
    (aggregate rs tt).failed = rs.length - (rs.filter (fun r => r.success)).length := rfl

theorem aggregate_successRate (rs : List (ItemResult P)) (tt : ℕ) :
    (aggregate rs tt).summary.successRate =
      if rs.length = 0 then none
      else some (jsRound (((rs.filter (fun r => r.success)).length : ℚ) /
        (rs.length : ℚ) * 100)) := rfl

theorem aggregate_averageTime (rs : List (ItemResult P)) (tt : ℕ) :
    (aggregate rs tt).summary.averageTime =
      jsRound (if (rs.filter (fun r => r.success)).length > 0 then
          (((rs.filter (fun r => r.success)).map (fun r => r.processingTime)).sum : ℚ) /
            ((rs.filter (fun r => r.success)).length : ℚ)
        else 0) := rfl

/-- The full `results` sequence of `process` is the per-item settlement of
every source, in input order. -/
theorem process_results (prov : Providers P) (sources : List String)
    (operation : String) (options : Options) (c : ℕ) (hc : 1 ≤ c) (tt : ℕ) :
    (process prov sources operation options c tt).results =
      sources.map (settleItem prov operation options) := by
  unfold process
  rw [aggregate_results, runBatches_eq, windows_flatten c hc]

/-- The full behaviour of `processWithProgress` under a valid settle
schedule: results settle per item in input order, and the event stream is
the counter values `1, …, n` with their percentages. -/
theorem processWithProgress_spec (prov : Providers P) (sources : List String)
    (operation : String) (options : Options) (c : ℕ) (hc : 1 ≤ c)
    (orders : List (List ℕ))
    (ho : validOrders (windows c sources) orders = true) (tt : ℕ) :
    processWithProgress prov sources operation options c orders tt =
      (aggregate (sources.map (settleItemPW prov operation options)) tt,
       (List.range sources.length).map (fun j => evAt sources.length (j + 1))) := by
  unfold processWithProgress
  rw [runPW_spec prov operation options sources.length (windows c sources) orders ho 0]
  dsimp only
  rw [windows_flatten c hc]
  refine congrArg₂ Prod.mk rfl ?_
  refine List.map_congr_left ?_
  intro j hj
  show evAt sources.length (0 + j + 1) = evAt sources.length (j + 1)
  have e : 0 + j + 1 = j + 1 := by omega
  rw [e]

theorem map_source_settleWith (em : Thrown → String) (prov : Providers P)
    (operation : String) (options : Options) (sources : List String) :
    (sources.map (settleWith em prov operation options)).map (fun it : ItemResult P => it.source) =
      sources := by
  rw [List.map_map]
  have : (fun it : ItemResult P => it.source) ∘ settleWith em prov operation options =
      fun s => (settleWith em prov operation options s).source := rfl
  rw [this]
  calc sources.map (fun s => (settleWith em prov operation options s).source)
      = sources.map id := List.map_congr_left fun s _ =>
        settleWith_source em prov operation options s
    _ = sources := List.map_id sources

theorem processErrMsg_cases (t : Thrown) :
    t.msg = some (processErrMsg t) ∨ processErrMsg t = "Unknown error" := by
  unfold processErrMsg
  cases h : t.msg with
  | none => exact Or.inr rfl
  | some m =>
    by_cases hm : m = ""
    · simp [hm]
    · simp [hm, h]

theorem progressErrMsg_cases (t : Thrown) :
    t.msg = some (progressErrMsg t) ∨ progressErrMsg t = "Unknown error" := by
  cases t with
  | errorObj m => exact Or.inl rfl
  | other m => exact Or.inr rfl

/-- A failed settlement records no payload, the normalised message, and a
zero processing time. -/
theorem settleWith_error (em : Thrown → String) (prov : Providers P)
    (operation : String) (options : Options) (s : String) (t : Thrown)
    (h : processSingle prov s operation options = .error t) :
    settleWith em prov operation options s =
      { source := s, success := false, result := none, error := some (em t),
        processingTime := 0 } := by
  unfold settleWith
  rw [h]

/-- A successful settlement records the payload and measured duration. -/
theorem settleWith_ok (em : Thrown → String) (prov : Providers P)
    (operation : String) (options : Options) (s : String) (p : P) (d : ℕ)
    (h : processSingle prov s operation options = .ok (p, d)) :
    settleWith em prov operation options s =
      { source := s, success := true, result := some p, error := none,
        processingTime := d } := by
  unfold settleWith
  rw [h]

/-- Unsuccessful `results` entries always carry `processingTime = 0`. -/
theorem settleWith_failed_time (em : Thrown → String) (prov : Providers P)
    (operation : String) (options : Options) (s : String)
    (h : (settleWith em prov operation options s).success = false) :
    (settleWith em prov operation options s).processingTime = 0 := by
  rcases hp : processSingle prov s operation options with t | ⟨p, d⟩
  · rw [settleWith_error em prov operation options s t hp]
  · rw [settleWith_ok em prov operation options s p d hp] at h
    exact Bool.noConfusion h

/-- The observable scheduling trace of one batch run: for each window, its
dispatches are issued together (in window order), then its settlements
occur (in the window's settle order), then — only if another window
follows — the fixed inter-window delay elapses.  The trace is a function
of the windows and settle orders alone: outcomes (and the providers) do
not influence it, which is the code's `if (i + concurrency <
sources.length) await setTimeout(100)` being unconditional on results. -/
inductive TraceEv where
  | dispatch (win idx : ℕ) (source : String)
  | settle (win idx : ℕ)
  | delay
deriving DecidableEq

/-- The window index an event belongs to (`none` for the delay). -/
def evWin : TraceEv → Option ℕ
  | .dispatch w _ _ => some w
  | .settle w _ => some w
  | .delay => none

def traceAux : List (List String × List ℕ) → ℕ → List TraceEv
  | [], _ => []
  | (w, o) :: rest, wi =>
    w.enum.map (fun p => TraceEv.dispatch wi p.1 p.2) ++
      o.map (fun j => TraceEv.settle wi j) ++
      (if rest.isEmpty then [] else [TraceEv.delay]) ++
      traceAux rest (wi + 1)

/-- The scheduling trace of a batch over `sources` with concurrency `c`
and per-window settle orders `orders`. -/
def trace (c : ℕ) (sources : List String) (orders : List (List ℕ)) : List TraceEv :=
  traceAux ((windows c sources).zip orders) 0

/-- The loop index progression of
`for (let i = 0; i < n; i += c)`, one unit of fuel per iteration:
`some k` means the loop exits after `k` further iterations, `none` that
the fuel was exhausted with the guard still true.  `c` is an integer so
that non-positive concurrency values can be analysed. -/
def loopWindows (c : ℤ) (n : ℕ) : ℕ → ℤ → Option ℕ
  | 0, i => if i < (n : ℤ) then none else some 0
  | fuel + 1, i =>
    if i < (n : ℤ) then (loopWindows c n fuel (i + c)).map (fun k => k + 1)
    else some 0

theorem traceAux_win_ge :
    ∀ (l : List (List String × List ℕ)) (wi : ℕ) (ev : TraceEv), ev ∈ traceAux l wi →
      ∀ a, evWin ev = some a → wi ≤ a := by
  intro l
  induction l with
  | nil =>
    intro wi ev h
    simp [traceAux] at h
  | cons x rest ih =>
    intro wi ev h a ha
    obtain ⟨w, o⟩ := x
    simp only [traceAux, List.mem_append] at h
    rcases h with ((h1 | h2) | h3) | h4
    · obtain ⟨p, hp, rfl⟩ := List.mem_map.mp h1
      simp [evWin] at ha
      omega
    · obtain ⟨j, hj, rfl⟩ := List.mem_map.mp h2
      simp [evWin] at ha
      omega
    · by_cases hr : rest.isEmpty
      · simp [hr] at h3
      · simp [hr] at h3
        subst h3
        simp [evWin] at ha
    · have := ih (wi + 1) ev h4 a ha
      omega

theorem block_win (w : List String) (o : List ℕ) (d : List TraceEv)
    (hd : d = [] ∨ d = [TraceEv.delay]) (wi : ℕ) :
    ∀ ev ∈ (w.enum.map (fun p => TraceEv.dispatch wi p.1 p.2) ++
        o.map (fun j => TraceEv.settle wi j) ++ d),
      evWin ev = some wi ∨ ev = TraceEv.delay := by
  intro ev h
  simp only [List.mem_append] at h
  rcases h with (h1 | h2) | h3
  · obtain ⟨p, hp, rfl⟩ := List.mem_map.mp h1
    exact Or.inl rfl
  · obtain ⟨j, hj, rfl⟩ := List.mem_map.mp h2
    exact Or.inl rfl
  · rcases hd with rfl | rfl
    · simp at h3
    · simp at h3
      exact Or.inr h3

theorem traceAux_decomp (w : List String) (o : List ℕ)
    (rest : List (List String × List ℕ)) (wi : ℕ) :
    traceAux ((w, o) :: rest) wi =
      (w.enum.map (fun p => TraceEv.dispatch wi p.1 p.2) ++
        o.map (fun j => TraceEv.settle wi j) ++
        (if rest.isEmpty then [] else [TraceEv.delay])) ++
      traceAux rest (wi + 1) := by
  simp [traceAux]

theorem traceAux_mono :
    ∀ (l : List (List String × List ℕ)) (wi i j : ℕ), i ≤ j →
      ∀ evi evj a b, (traceAux l wi)[i]? = some evi → (traceAux l wi)[j]? = some evj →
        evWin evi = some a → evWin evj = some b → a ≤ b := by
  intro l
  induction l with
  | nil =>
    intro wi i j hij evi evj a b hi hj ha hb
    simp [traceAux] at hi
  | cons x rest ih =>
    intro wi i j hij evi evj a b hi hj ha hb
    obtain ⟨w, o⟩ := x
    rw [traceAux_decomp] at hi hj
    set B := w.enum.map (fun p => TraceEv.dispatch wi p.1 p.2) ++
        o.map (fun j => TraceEv.settle wi j) ++
        (if rest.isEmpty then ([] : List TraceEv) else [TraceEv.delay]) with hB
    have hBwin : ∀ ev ∈ B, evWin ev = some wi ∨ ev = TraceEv.delay := by
      refine block_win w o _ ?_ wi
      by_cases hr : rest.isEmpty <;> simp [hr]
    by_cases hiB : i < B.length
    · have hi' : B[i]? = some evi := by
        rw [List.getElem?_append_left hiB] at hi
        exact hi
      have hwin_i : a = wi := by
        rcases hBwin evi (List.getElem?_mem hi') with h | h
        · rw [h] at ha
          exact (Option.some_injective _ ha).symm
        · rw [h] at ha
          exact absurd ha (by simp [evWin])
      by_cases hjB : j < B.length
      · have hj' : B[j]? = some evj := by
          rw [List.getElem?_append_left hjB] at hj
          exact hj
        have hwin_j : b = wi := by
          rcases hBwin evj (List.getElem?_mem hj') with h | h
          · rw [h] at hb
            exact (Option.some_injective _ hb).symm
          · rw [h] at hb
            exact absurd hb (by simp [evWin])
        omega
      · have hj' : (traceAux rest (wi + 1))[j - B.length]? = some evj := by
          rw [List.getElem?_append_right (by omega)] at hj
          exact hj
        have : wi + 1 ≤ b :=
          traceAux_win_ge rest (wi + 1) evj (List.getElem?_mem hj') b hb
        omega
    · have hij' : B.length ≤ i := by omega
      have hjB : B.length ≤ j := by omega
      have hi' : (traceAux rest (wi + 1))[i - B.length]? = some evi := by
        rw [List.getElem?_append_right hij'] at hi
        exact hi
      have hj' : (traceAux rest (wi + 1))[j - B.length]? = some evj := by
        rw [List.getElem?_append_right hjB] at hj
        exact hj
      exact ih (wi + 1) (i - B.length) (j - B.length) (by omega) evi evj a b hi' hj' ha hb

theorem traceAux_count_delay :
    ∀ (l : List (List String × List ℕ)) (wi : ℕ),
      (traceAux l wi).count TraceEv.delay = l.length - 1 := by
  intro l
  induction l with
  | nil => intro wi; simp [traceAux]
  | cons x rest ih =>
    intro wi
    obtain ⟨w, o⟩ := x
    rw [traceAux_decomp]
    have h1 : (w.enum.map (fun p => TraceEv.dispatch wi p.1 p.2)).count TraceEv.delay = 0 := by
      rw [List.count_eq_zero]
      intro hmem
      obtain ⟨p, _, hp⟩ := List.mem_map.mp hmem
      exact TraceEv.noConfusion hp
    have h2 : (o.map (fun j => TraceEv.settle wi j)).count TraceEv.delay = 0 := by
      rw [List.count_eq_zero]
      intro hmem
      obtain ⟨p, _, hp⟩ := List.mem_map.mp hmem
      exact TraceEv.noConfusion hp
    cases rest with
    | nil =>
      simp only [List.isEmpty_nil, if_true, List.count_append, h1, h2, ih]
      simp [traceAux]
    | cons y ys =>
      simp only [List.isEmpty_cons, if_false, List.count_append, h1, h2, ih (wi + 1)]
      simp only [List.length_cons]
      have : TraceEv.delay ∈ [TraceEv.delay] := List.mem_singleton.mpr rfl
      simp [List.count_singleton]
      omega

theorem traceAux_getLast :
    ∀ (l : List (List String × List ℕ)), l ≠ [] →
      (∀ p ∈ l, p.1 ≠ [] ∧ p.2 ≠ []) →
      ∀ wi, ∃ k j, (traceAux l wi).getLast? = some (TraceEv.settle k j) := by
  intro l
  induction l with
  | nil => intro h; exact absurd rfl h
  | cons x rest ih =>
    intro _ hp wi
    obtain ⟨w, o⟩ := x
    rw [traceAux_decomp]
    cases rest with
    | nil =>
      have ho : o ≠ [] := (hp (w, o) (by simp)).2
      simp only [List.isEmpty_nil, if_true, List.append_nil]
      rw [show traceAux [] (wi + 1) = [] from rfl, List.append_nil,
        List.getLast?_append, List.getLast?_map]
      obtain ⟨j, hj⟩ := Option.isSome_iff_exists.mp (List.getLast?_isSome.mpr ho)
      exact ⟨wi, j, by rw [hj]; rfl⟩
    | cons y ys =>
      have hys : traceAux (y :: ys) (wi + 1) ≠ [] := by
        obtain ⟨w', o'⟩ := y
        rw [traceAux_decomp]
        intro habs
        have hw' : w' ≠ [] := (hp (w', o') (by simp)).1
        have : w'.enum ≠ [] := by
          intro h0
          have := congrArg List.length h0
          simp only [List.enum_length, List.length_nil] at this
          exact hw' (List.length_eq_zero.mp this)
        have hlen := congrArg List.length habs
        simp only [List.length_append, List.length_map, List.length_nil] at hlen
        have : w'.enum.length = 0 := by omega
        exact hw' (List.length_eq_zero.mp (by simpa using this))
      obtain ⟨k, j, hk⟩ := ih (by simp) (fun p h => hp p (List.mem_cons_of_mem _ h)) (wi + 1)
      refine ⟨k, j, ?_⟩
      rw [List.getLast?_append, hk]
      rfl

theorem traceAux_dispatch_mem :
    ∀ (l : List (List String × List ℕ)) (wi k idx : ℕ) (s : String),
      TraceEv.dispatch k idx s ∈ traceAux l wi ↔
        (wi ≤ k ∧ ∃ w o, l[k - wi]? = some (w, o) ∧ w[idx]? = some s) := by
  intro l
  induction l with
  | nil =>
    intro wi k idx s
    simp [traceAux]
  | cons x rest ih =>
    intro wi k idx s
    obtain ⟨w, o⟩ := x
    rw [traceAux_decomp]
    simp only [List.mem_append]
    constructor
    · rintro (((h1 | h2) | h3) | h4)
      · obtain ⟨p, hp, he⟩ := List.mem_map.mp h1
        obtain ⟨hk, hidx, hs⟩ : wi = k ∧ p.1 = idx ∧ p.2 = s := by
          cases he
          exact ⟨rfl, rfl, rfl⟩
        subst hk
        refine ⟨le_rfl, w, o, ?_, ?_⟩
        · simp
        · have : (p.1, p.2) ∈ w.enum := by
            rw [show (p.1, p.2) = p from rfl]
            exact hp
          rw [← hidx, ← hs]
          exact List.mk_mem_enum_iff_getElem?.mp this
      · obtain ⟨p, _, he⟩ := List.mem_map.mp h2
        exact TraceEv.noConfusion he
      · by_cases hr : rest.isEmpty <;> simp [hr] at h3
      · obtain ⟨hk, w', o', hrest, hw'⟩ := (ih (wi + 1) k idx s).mp h4
        refine ⟨by omega, w', o', ?_, hw'⟩
        have : k - wi = (k - (wi + 1)) + 1 := by omega
        rw [this, List.getElem?_cons_succ]
        exact hrest
    · rintro ⟨hk, w', o', hl, hw'⟩
      rcases Nat.eq_or_lt_of_le hk with heq | hlt
      · have h0 : k - wi = 0 := by omega
        rw [h0, List.getElem?_cons_zero] at hl
        obtain ⟨rfl, rfl⟩ : w = w' ∧ o = o' := by
          cases hl
          exact ⟨rfl, rfl⟩
        left; left; left
        refine List.mem_map.mpr ⟨(idx, s), ?_, ?_⟩
        · rw [List.mk_mem_enum_iff_getElem?]
          exact hw'
        · rw [heq]
      · right
        refine (ih (wi + 1) k idx s).mpr ⟨by omega, w', o', ?_, hw'⟩
        have : k - wi = (k - (wi + 1)) + 1 := by omega
        rw [this, List.getElem?_cons_succ] at hl
        exact hl

theorem windowsAux_get_length (c : ℕ) (hc : 1 ≤ c) :
    ∀ (fuel : ℕ) (l : List α), l.length ≤ fuel →
      ∀ i w, (windowsAux c fuel l)[i]? = some w →
        i + 1 < (windowsAux c fuel l).length → w.length = c := by
  intro fuel
  induction fuel with
  | zero =>
    intro l hl i w hi _
    have : l = [] := List.length_eq_zero.mp (Nat.le_zero.mp hl)
    subst this
    simp [windowsAux] at hi
  | succ n ih =>
    intro l hl i w hi hlen
    cases l with
    | nil => simp [windowsAux] at hi
    | cons a t =>
      have hc0 : c ≠ 0 := by omega
      have hdrop : ((a :: t).drop c).length ≤ n := by
        rw [List.length_drop]
        simp only [List.length_cons] at hl ⊢
        omega
      simp only [windowsAux, hc0, if_false] at hi
      simp only [windowsAux, hc0, if_false, List.length_cons] at hlen
      cases i with
      | zero =>
        rw [List.getElem?_cons_zero] at hi
        obtain rfl : (a :: t).take c = w := by
          cases hi
          rfl
        by_cases hlarge : (a :: t).length ≤ c
        · have : (a :: t).drop c = [] := List.drop_eq_nil_of_le hlarge
          rw [this] at hlen
          have : windowsAux c n ([] : List α) = [] := by
            cases n <;> rfl
          rw [this] at hlen
          simp at hlen
        · rw [List.length_take]
          simp only [List.length_cons] at hlarge ⊢
          omega
      | succ i' =>
        rw [List.getElem?_cons_succ] at hi
        exact ih _ hdrop i' w hi (by omega)

/-- Windows other than the last have length exactly `c`. -/
theorem windows_get_length (c : ℕ) (hc : 1 ≤ c) (l : List α) (i : ℕ) (w : List α)
    (hw : (windows c l)[i]? = some w) (hi : i + 1 < (windows c l).length) :
    w.length = c :=
  windowsAux_get_length c hc l.length l le_rfl i w hw hi

theorem validOrders_zip :
    ∀ (ws : List (List String)) (os : List (List ℕ)), validOrders ws os = true →
      ws.length = os.length ∧
        ∀ p ∈ ws.zip os, p.2.Perm (List.range p.1.length) := by
  intro ws
  induction ws with
  | nil =>
    intro os h
    cases os with
    | nil => exact ⟨rfl, by simp⟩
    | cons o os' => simp [validOrders] at h
  | cons w ws' ih =>
    intro os h
    cases os with
    | nil => simp [validOrders] at h
    | cons o os' =>
      have h' : o.isPerm (List.range w.length) = true ∧ validOrders ws' os' = true := by
        simpa [validOrders, Bool.and_eq_true] using h
      obtain ⟨hlen, hall⟩ := ih os' h'.2
      refine ⟨by simp [hlen], ?_⟩
      intro p hp
      have hz : (w :: ws').zip (o :: os') = (w, o) :: ws'.zip os' := rfl
      rw [hz] at hp
      rcases List.mem_cons.mp hp with rfl | hp'
      · exact List.isPerm_iff.mp h'.1
      · exact hall p hp'

theorem loopWindows_pos (c : ℕ) (hc : 1 ≤ c) (n : ℕ) :
    ∀ (fuel i : ℕ), n ≤ i + fuel * c →
      loopWindows (c : ℤ) n fuel (i : ℤ) = some ((n - i + c - 1) / c) := by
  intro fuel
  induction fuel with
  | zero =>
    intro i hfuel
    simp only [Nat.zero_mul, Nat.add_zero] at hfuel
    have hni : ¬((i : ℤ) < (n : ℤ)) := by omega
    simp only [loopWindows, hni, if_false]
    have : n - i = 0 := by omega
    rw [this, Nat.div_eq_of_lt (by omega)]
  | succ fuel ih =>
    intro i hfuel
    by_cases hin : i < n
    · have hlt : (i : ℤ) < (n : ℤ) := by omega
      have hcast : (i : ℤ) + (c : ℤ) = ((i + c : ℕ) : ℤ) := by push_cast; ring
      have hmul : (fuel + 1) * c = fuel * c + c := by ring
      simp only [loopWindows, hlt, if_true, hcast]
      rw [ih (i + c) (by omega)]
      have harith : (n - (i + c) + c - 1) / c + 1 = (n - i + c - 1) / c := by
        have hm : 1 ≤ n - i := by omega
        have he : n - i + c - 1 = (n - i - 1) + c := by omega
        rw [he, Nat.add_div_right _ (by omega)]
        rcases Nat.le_total c (n - i) with hcm | hcm
        · have : n - (i + c) + c - 1 = n - i - 1 := by omega
          rw [this]
        · have h0 : n - (i + c) = 0 := by omega
          have h1 : n - i - 1 < c := by omega
          rw [h0, Nat.zero_add, Nat.div_eq_of_lt (by omega),
            Nat.div_eq_of_lt h1]
      show some ((n - (i + c) + c - 1) / c + 1) = some ((n - i + c - 1) / c)
      rw [harith]
    · have hni : ¬((i : ℤ) < (n : ℤ)) := by omega
      simp only [loopWindows, hni, if_false]
      have : n - i = 0 := by omega
      rw [this, Nat.div_eq_of_lt (by omega)]

theorem loopWindows_nonpos (c : ℤ) (hc : c ≤ 0) (n : ℕ) (hn : 0 < n) :
    ∀ (fuel : ℕ) (i : ℤ), i ≤ 0 → loopWindows c n fuel i = none := by
  intro fuel
  induction fuel with
  | zero =>
    intro i hi
    have : i < (n : ℤ) := by omega
    simp [loopWindows, this]
  | succ fuel ih =>
    intro i hi
    have hlt : i < (n : ℤ) := by omega
    simp only [loopWindows, hlt, if_true]
    rw [ih (i + c) (by omega)]
    rfl

/-- ASCII lower-casing of one character, as `String.prototype.toLowerCase`
acts on the ASCII range relevant to the extension patterns. -/
def asciiLower (c : Char) : Char :=
  if 'A' ≤ c && c ≤ 'Z' then Char.ofNat (c.toNat + 32) else c

/-- `source.startsWith(pre)`, modelled on the character sequence. -/
def strStartsWith (s pre : String) : Bool :=
  pre.data.isPrefixOf s.data

/-- `source.includes(c)` for a single character. -/
def strContainsChar (s : String) (c : Char) : Bool :=
  s.data.contains c

/-- The extension alternatives of the regular expression
`/\.(jpg|jpeg|png|gif|bmp|webp|avif|tiff)$/i`. -/
def imageExts : List String :=
  ["jpg", "jpeg", "png", "gif", "bmp", "webp", "avif", "tiff"]

/-- Whether the case-insensitive anchored pattern
`/\.(jpg|…|tiff)$/i` matches `s`: some alternative, preceded by a dot,
is a suffix of the lower-cased character sequence. -/
def hasImageExt (s : String) : Bool :=
  imageExts.any (fun e => ("." ++ e).data.isSuffixOf (s.data.map asciiLower))

/-- `BatchProcessor.isValidSource`.  The success of `new URL(source)` — a
WHATWG parser external to the repository — is abstracted as the predicate
`urlOk`, consulted exactly on the sources that start with `http://` or
`https://`, as in the code. -/
def isValidSource (urlOk : String → Bool) (source : String) : Bool :=
  if strStartsWith source "http://" || strStartsWith source "https://" then
    urlOk source
  else if strStartsWith source "data:image/" then true
  else strContainsChar source '.' && hasImageExt source

/-- `BatchProcessor.validateSources`: the classification loop, pushing
each source onto the `valid` or `invalid` list in input order.  It is a
total function: no error is ever thrown. -/
def validateSources (urlOk : String → Bool) : List String → List String × List String
  | [] => ([], [])
  | s :: rest =>
    let out := validateSources urlOk rest
    if isValidSource urlOk s then (s :: out.1, out.2) else (out.1, s :: out.2)

theorem validateSources_eq (urlOk : String → Bool) :
    ∀ l : List String,
      validateSources urlOk l =
        (l.filter (fun s => isValidSource urlOk s),
         l.filter (fun s => !isValidSource urlOk s)) := by
  intro l
  induction l with
  | nil => rfl
  | cons s rest ih =>
    by_cases h : isValidSource urlOk s <;>
      simp [validateSources, ih, List.filter_cons, h]

/-- A provider record that always fulfills, with distinct durations per
operation; used to instantiate universally quantified theorems. -/
def provOkU : Providers Unit :=
  { analyze := fun _ _ => .ok ((), 5)
    compress := fun _ _ => .ok ((), 7)
    convert := fun _ _ _ => .ok ((), 9)
    extractColors := fun _ _ => .ok ((), 11) }

/-- A provider record whose `analyze` rejects with a non-`Error` value
carrying a `message` property — the shape on which the two entry points'
error normalisations disagree. -/
def provBoom : Providers Unit :=
  { analyze := fun _ _ => .error (.other (some "boom"))
    compress := fun _ _ => .ok ((), 7)
    convert := fun _ _ _ => .ok ((), 9)
    extractColors := fun _ _ => .ok ((), 11) }

theorem aggregate_map_invariants (em : Thrown → String) (prov : Providers P)
    (operation : String) (options : Options) (sources : List String) (tt : ℕ) :
    ∀ r : BatchResult P,
      r = aggregate (sources.map (settleWith em prov operation options)) tt →
        r.results.length = r.totalProcessed ∧
        r.totalProcessed = sources.length ∧
        r.successful + r.failed = r.totalProcessed ∧
        r.results.map (fun it : ItemResult P => it.source) = sources ∧
        ∀ i : ℕ, (r.results[i]?).map (fun it : ItemResult P => it.source) = sources[i]? := by
  rintro r rfl
  refine ⟨rfl, ?_, ?_, ?_, ?_⟩
  · rw [aggregate_totalProcessed, List.length_map]
  · rw [aggregate_successful, aggregate_failed, aggregate_totalProcessed]
    have := List.length_filter_le (fun r => r.success)
      (sources.map (settleWith em prov operation options))
    omega
  · rw [aggregate_results]
    exact map_source_settleWith em prov operation options sources
  · intro i
    rw [aggregate_results, List.getElem?_map]
    cases h : sources[i]? with
    | none => rfl
    | some s => simp [settleWith_source]

/-- The conclusions of claim C1, for one run of each entry point. -/
def C1Prop (P : Type) (prov : Providers P) (sources : List String)
    (operation : String) (options : Options) (c : ℕ) (orders : List (List ℕ))
    (tt tt' : ℕ) : Prop :=
  let r := process prov sources operation options c tt
  let rp := (processWithProgress prov sources operation options c orders tt').1
  r.results.length = r.totalProcessed ∧
  r.totalProcessed = sources.length ∧
  r.successful + r.failed = r.totalProcessed ∧
  r.results.map (fun it : ItemResult P => it.source) = sources ∧
  (∀ i : ℕ, (r.results[i]?).map (fun it : ItemResult P => it.source) = sources[i]?) ∧
  rp.results.length = rp.totalProcessed ∧
  rp.totalProcessed = sources.length ∧
  rp.successful + rp.failed = rp.totalProcessed ∧
  rp.results.map (fun it : ItemResult P => it.source) = sources ∧
  ∀ i : ℕ, (rp.results[i]?).map (fun it : ItemResult P => it.source) = sources[i]?

/-- C1: for every sources list, operation, options and concurrency ≥ 1,
both `process` and `processWithProgress` return a `BatchResult` with
`results.length = totalProcessed = sources.length`,
`successful + failed = totalProcessed`, and `results[i].source =
sources[i]` for every index, for every settle order of every window
(`orders` ranges over all valid settle schedules). -/
theorem C1_batch_invariants (P : Type) (prov : Providers P)
    (sources : List String) (operation : String) (options : Options)
    (c : ℕ) (hc : 1 ≤ c) (orders : List (List ℕ))
    (ho : validOrders (windows c sources) orders = true) (tt tt' : ℕ) :
    C1Prop P prov sources operation options c orders tt tt' := by
  have hr : process prov sources operation options c tt =
      aggregate (sources.map (settleWith processErrMsg prov operation options)) tt := by
    unfold process
    rw [runBatches_eq, windows_flatten c hc]
    rfl
  have hrp : (processWithProgress prov sources operation options c orders tt').1 =
      aggregate (sources.map (settleWith progressErrMsg prov operation options)) tt' := by
    rw [processWithProgress_spec prov sources operation options c hc orders ho tt']
    rfl
  obtain ⟨a1, a2, a3, a4, a5⟩ :=
    aggregate_map_invariants processErrMsg prov operation options sources tt _ rfl
  obtain ⟨b1, b2, b3, b4, b5⟩ :=
    aggregate_map_invariants progressErrMsg prov operation options sources tt' _ rfl
  unfold C1Prop
  rw [hr, hrp]
  exact ⟨a1, a2, a3, a4, a5, b1, b2, b3, b4, b5⟩

/-- C1 witness: the theorem applied at a concrete input with the
hypotheses checked by evaluation. -/
theorem C1_batch_invariants_witness :
    (1 ≤ 2 ∧ validOrders (windows 2 ["a", "b", "c"]) [[1, 0], [0]] = true) ∧
    C1Prop Unit provOkU ["a", "b", "c"] "analyze" ⟨none⟩ 2 [[1, 0], [0]] 40 41 :=
  ⟨⟨by decide, by decide⟩,
   C1_batch_invariants Unit provOkU ["a", "b", "c"] "analyze" ⟨none⟩ 2 (by decide)
     [[1, 0], [0]] (by decide) 40 41⟩

/-- The `results` entry recorded for a failed item: no payload, the
normalised error message, zero processing time. -/
def failureItem (P : Type) (s msg : String) : ItemResult P :=
  { source := s, success := false, result := none, error := some msg,
    processingTime := 0 }

/-- The conclusions of claim C2, for one run of each entry point. -/
def C2Prop (P : Type) (prov : Providers P) (sources : List String)
    (operation : String) (options : Options) (c : ℕ) (orders : List (List ℕ))
    (tt tt' : ℕ) : Prop :=
  let r := process prov sources operation options c tt
  let rp := (processWithProgress prov sources operation options c orders tt').1
  r.results.map (fun it : ItemResult P => it.source) = sources ∧
  rp.results.map (fun it : ItemResult P => it.source) = sources ∧
  ∀ i : ℕ, ∀ s t, sources[i]? = some s →
    processSingle prov s operation options = .error t →
      r.results[i]? = some (failureItem P s (processErrMsg t)) ∧
      (t.msg = some (processErrMsg t) ∨ processErrMsg t = "Unknown error") ∧
      rp.results[i]? = some (failureItem P s (progressErrMsg t)) ∧
      (t.msg = some (progressErrMsg t) ∨ progressErrMsg t = "Unknown error")

/-- C2: every rejection raised while processing one item (whether from
pre-validation or from a provider) is caught and becomes that item's
failure entry, whose message is the raised error's `message` property or
the fallback `"Unknown error"`; the batch still returns a complete
`BatchResult` covering all sources, in both entry points. -/
theorem C2_failures_captured (P : Type) (prov : Providers P)
    (sources : List String) (operation : String) (options : Options)
    (c : ℕ) (hc : 1 ≤ c) (orders : List (List ℕ))
    (ho : validOrders (windows c sources) orders = true) (tt tt' : ℕ) :
    C2Prop P prov sources operation options c orders tt tt' := by
  have hr : (process prov sources operation options c tt).results =
      sources.map (settleWith processErrMsg prov operation options) := by
    unfold process
    rw [aggregate_results, runBatches_eq, windows_flatten c hc]
    rfl
  have hrp : ((processWithProgress prov sources operation options c orders tt').1).results =
      sources.map (settleWith progressErrMsg prov operation options) := by
    rw [processWithProgress_spec prov sources operation options c hc orders ho tt']
    rfl
  unfold C2Prop
  refine ⟨?_, ?_, ?_⟩
  · rw [hr]
    exact map_source_settleWith processErrMsg prov operation options sources
  · rw [hrp]
    exact map_source_settleWith progressErrMsg prov operation options sources
  · intro i s t hs hterr
    refine ⟨?_, processErrMsg_cases t, ?_, progressErrMsg_cases t⟩
    · rw [hr, List.getElem?_map, hs]
      simp only [Option.map_some']
      rw [settleWith_error processErrMsg prov operation options s t hterr]
      rfl
    · rw [hrp, List.getElem?_map, hs]
      simp only [Option.map_some']
      rw [settleWith_error progressErrMsg prov operation options s t hterr]
      rfl

/-- C2 witness: a provider whose `analyze` rejects; the single item fails
with the thrown value's message while the batch covers all items. -/
theorem C2_failures_captured_witness :
    (1 ≤ 1 ∧ validOrders (windows 1 ["x"]) [[0]] = true) ∧
    C2Prop Unit provBoom ["x"] "analyze" ⟨none⟩ 1 [[0]] 7 8 :=
  ⟨⟨by decide, by decide⟩,
   C2_failures_captured Unit provBoom ["x"] "analyze" ⟨none⟩ 1 (by decide)
     [[0]] (by decide) 7 8⟩

/-- The conclusions of claim C3 about windowing and the scheduling trace. -/
def C3Prop (sources : List String) (c : ℕ) (orders : List (List ℕ)) : Prop :=
  let ws := windows c sources
  let T := trace c sources orders
  ws.flatten = sources ∧
  (∀ w ∈ ws, w ≠ [] ∧ w.length ≤ c) ∧
  (∀ i : ℕ, ∀ w, ws[i]? = some w → i + 1 < ws.length → w.length = c) ∧
  (∀ k idx : ℕ, ∀ s, TraceEv.dispatch k idx s ∈ T ↔
     ∃ w o, (ws.zip orders)[k]? = some (w, o) ∧ w[idx]? = some s) ∧
  (∀ i j : ℕ, ∀ wi ii wj jj s, T[i]? = some (TraceEv.settle wi ii) →
     T[j]? = some (TraceEv.dispatch wj jj s) → wi < wj → i < j) ∧
  T.count TraceEv.delay = ws.length - 1 ∧
  (sources ≠ [] → T.getLast? ≠ some TraceEv.delay)

/-- C3: the loop splits `sources` into consecutive windows of size `c`
(only the last may be smaller); the dispatches of window `k` are exactly
the elements of window `k`; no dispatch of a later window ever occurs
before any settlement of an earlier window, whatever the settle orders;
and the inter-window delay occurs exactly `numWindows - 1` times, never
after the last window.  The trace is built from the windows and settle
orders alone, so it is independent of the providers' outcomes. -/
theorem C3_window_scheduling (sources : List String) (c : ℕ) (hc : 1 ≤ c)
    (orders : List (List ℕ))
    (ho : validOrders (windows c sources) orders = true) :
    C3Prop sources c orders := by
  obtain ⟨hlen, hperm⟩ := validOrders_zip (windows c sources) orders ho
  have hzip : ∀ p ∈ (windows c sources).zip orders, p.1 ≠ [] ∧ p.2 ≠ [] := by
    intro p hp
    obtain ⟨h1, h2⟩ := List.of_mem_zip hp
    have hw := windows_mem c hc sources p.1 h1
    refine ⟨hw.1, ?_⟩
    have := (hperm p hp).length_eq
    simp only [List.length_range] at this
    intro habs
    rw [habs] at this
    simp only [List.length_nil] at this
    have : p.1.length = 0 := this.symm
    exact hw.1 (List.length_eq_zero.mp this)
  unfold C3Prop
  refine ⟨windows_flatten c hc sources, windows_mem c hc sources,
    ?_, ?_, ?_, ?_, ?_⟩
  · intro i w hw hi
    exact windows_get_length c hc sources i w hw hi
  · intro k idx s
    rw [trace, traceAux_dispatch_mem]
    constructor
    · rintro ⟨-, w, o, hk, hs⟩
      exact ⟨w, o, by simpa using hk, hs⟩
    · rintro ⟨w, o, hk, hs⟩
      exact ⟨Nat.zero_le k, w, o, by simpa using hk, hs⟩
  · intro i j wi ii wj jj s hi hj hij
    by_contra hcon
    have hji : j ≤ i := by omega
    have := traceAux_mono ((windows c sources).zip orders) 0 j i hji
      (TraceEv.dispatch wj jj s) (TraceEv.settle wi ii) wj wi hj hi rfl rfl
    omega
  · rw [trace, traceAux_count_delay, List.length_zip, hlen]
    simp
  · intro hne
    obtain ⟨k, j, hk⟩ := traceAux_getLast ((windows c sources).zip orders)
      (by
        intro habs
        have h0 := List.length_zip (windows c sources) orders
        rw [habs] at h0
        simp only [List.length_nil, hlen] at h0
        have hws : (windows c sources).length = (sources.length + c - 1) / c :=
          windows_length c hc sources
        have hn : 1 ≤ sources.length := by
          rcases Nat.eq_zero_or_pos sources.length with h | h
          · exact absurd (List.length_eq_zero.mp h) hne
          · omega
        have : 1 ≤ (sources.length + c - 1) / c := by
          rw [Nat.le_div_iff_mul_le (by omega)]
          omega
        rw [← hlen] at h0
        omega)
      hzip 0
    rw [trace, hk]
    intro habs
    exact TraceEv.noConfusion (Option.some_injective _ habs)

/-- C3 witness: the spec's window scenario `[a, b, c]` with concurrency 2,
with the first window settling out of order. -/
theorem C3_window_scheduling_witness :
    (1 ≤ 2 ∧ validOrders (windows 2 ["a", "b", "c"]) [[1, 0], [0]] = true) ∧
    C3Prop ["a", "b", "c"] 2 [[1, 0], [0]] :=
  ⟨⟨by decide, by decide⟩,
   C3_window_scheduling ["a", "b", "c"] 2 (by decide) [[1, 0], [0]] (by decide)⟩

/-- The conclusions of claim C4 about the progress event stream. -/
def C4Prop (P : Type) (prov : Providers P) (sources : List String)
    (operation : String) (options : Options) (c : ℕ) (orders : List (List ℕ))
    (tt : ℕ) : Prop :=
  let n := sources.length
  let evs := (processWithProgress prov sources operation options c orders tt).2
  evs.length = n ∧
  evs.map (fun e => e.completed) = List.range' 1 n ∧
  (∀ e ∈ evs, e.total = n ∧ e.percentage = pctOf e.completed n) ∧
  (0 < n → evs.getLast? = some (evAt n n) ∧ (evAt n n).percentage = 100)

/-- C4: one progress event fires per settling item — `n` events in all —
their `completed` values are exactly `1, 2, …, n` whatever the settle
orders, each percentage is `round(completed / n * 100)`, and the final
event reports `completed = n` with percentage 100 when `n > 0`. -/
theorem C4_progress_events (P : Type) (prov : Providers P)
    (sources : List String) (operation : String) (options : Options)
    (c : ℕ) (hc : 1 ≤ c) (orders : List (List ℕ))
    (ho : validOrders (windows c sources) orders = true) (tt : ℕ) :
    C4Prop P prov sources operation options c orders tt := by
  have hev : (processWithProgress prov sources operation options c orders tt).2 =
      (List.range sources.length).map (fun j => evAt sources.length (j + 1)) := by
    rw [processWithProgress_spec prov sources operation options c hc orders ho tt]
  unfold C4Prop
  rw [hev]
  refine ⟨by simp, ?_, ?_, ?_⟩
  · rw [List.map_map, List.range'_eq_map_range]
    refine List.map_congr_left ?_
    intro j hj
    show j + 1 = 1 + j
    omega
  · intro e he
    obtain ⟨j, hj, rfl⟩ := List.mem_map.mp he
    exact ⟨rfl, rfl⟩
  · intro hn
    constructor
    · rw [List.getLast?_map]
      obtain ⟨m, hm⟩ : ∃ m, sources.length = m + 1 :=
        ⟨sources.length - 1, by omega⟩
      rw [hm, List.range_succ, List.getLast?_append]
      simp
    · show pctOf sources.length sources.length = 100
      unfold pctOf
      rw [div_self (by positivity), one_mul]
      unfold jsRound
      norm_num

/-- C4 witness: the spec's progress scenario, five sources with
concurrency 2 and out-of-order settlement inside the full windows. -/
theorem C4_progress_events_witness :
    (1 ≤ 2 ∧
      validOrders (windows 2 ["a", "b", "c", "d", "e"]) [[1, 0], [0, 1], [0]] = true) ∧
    C4Prop Unit provOkU ["a", "b", "c", "d", "e"] "analyze" ⟨none⟩ 2
      [[1, 0], [0, 1], [0]] 12 :=
  ⟨⟨by decide, by decide⟩,
   C4_progress_events Unit provOkU ["a", "b", "c", "d", "e"] "analyze" ⟨none⟩ 2
     (by decide) [[1, 0], [0, 1], [0]] (by decide) 12⟩

theorem aggregate_successRate_spec (rs : List (ItemResult P)) (tt : ℕ) :
    (0 < (aggregate rs tt).totalProcessed →
      (aggregate rs tt).summary.successRate =
        some (jsRound (((aggregate rs tt).successful : ℚ) /
          ((aggregate rs tt).totalProcessed : ℚ) * 100))) ∧
    ((aggregate rs tt).totalProcessed = 0 →
      (aggregate rs tt).summary.successRate = none) := by
  rw [aggregate_totalProcessed, aggregate_successful, aggregate_successRate]
  constructor
  · intro h
    rw [if_neg (by omega)]
  · intro h
    rw [if_pos h]

/-- C5 counterexample: on an empty sources list `process` returns
`totalProcessed = 0` but `successRate` is the JS value `NaN`
(modelled `none`), not `0`: `Math.round((0 / 0) * 100)` is `NaN`. -/
theorem C5_successRate_empty_counterexample :
    (process provOkU [] "analyze" ⟨none⟩ 3 0).totalProcessed = 0 ∧
    (process provOkU [] "analyze" ⟨none⟩ 3 0).summary.successRate = none ∧
    (process provOkU [] "analyze" ⟨none⟩ 3 0).summary.successRate ≠
      some 0 := by
  refine ⟨rfl, rfl, ?_⟩
  decide

/-- The conclusions of the amended claim C5. -/
def C5Prop (P : Type) (prov : Providers P) (sources : List String)
    (operation : String) (options : Options) (c : ℕ) (orders : List (List ℕ))
    (tt tt' : ℕ) : Prop :=
  let r := process prov sources operation options c tt
  let rp := (processWithProgress prov sources operation options c orders tt').1
  (0 < r.totalProcessed → r.summary.successRate =
    some (jsRound ((r.successful : ℚ) / (r.totalProcessed : ℚ) * 100))) ∧
  (r.totalProcessed = 0 → r.summary.successRate = none) ∧
  (0 < rp.totalProcessed → rp.summary.successRate =
    some (jsRound ((rp.successful : ℚ) / (rp.totalProcessed : ℚ) * 100))) ∧
  (rp.totalProcessed = 0 → rp.summary.successRate = none)

/-- C5 (amended): `successRate = round(successful / totalProcessed * 100)`
whenever `totalProcessed > 0`; when `totalProcessed = 0` the field is the
JS `NaN` (modelled `none`), not `0`. -/
theorem C5_successRate (P : Type) (prov : Providers P) (sources : List String)
    (operation : String) (options : Options) (c : ℕ) (hc : 1 ≤ c)
    (orders : List (List ℕ))
    (ho : validOrders (windows c sources) orders = true) (tt tt' : ℕ) :
    C5Prop P prov sources operation options c orders tt tt' := by
  have hr : process prov sources operation options c tt =
      aggregate (sources.map (settleWith processErrMsg prov operation options)) tt := by
    unfold process
    rw [runBatches_eq, windows_flatten c hc]
    rfl
  have hrp : (processWithProgress prov sources operation options c orders tt').1 =
      aggregate (sources.map (settleWith progressErrMsg prov operation options)) tt' := by
    rw [processWithProgress_spec prov sources operation options c hc orders ho tt']
    rfl
  obtain ⟨a1, a2⟩ :=
    aggregate_successRate_spec
      (sources.map (settleWith processErrMsg prov operation options)) tt
  obtain ⟨b1, b2⟩ :=
    aggregate_successRate_spec
      (sources.map (settleWith progressErrMsg prov operation options)) tt'
  unfold C5Prop
  rw [hr, hrp]
  exact ⟨a1, a2, b1, b2⟩

/-- C5 witness for the amended claim, on a non-empty and an implicit
empty case (the `totalProcessed = 0` branch is exercised by the
counterexample input). -/
theorem C5_successRate_witness :
    (1 ≤ 2 ∧ validOrders (windows 2 ["a", "b", "c"]) [[0, 1], [0]] = true) ∧
    C5Prop Unit provOkU ["a", "b", "c"] "analyze" ⟨none⟩ 2 [[0, 1], [0]] 20 21 :=
  ⟨⟨by decide, by decide⟩,
   C5_successRate Unit provOkU ["a", "b", "c"] "analyze" ⟨none⟩ 2 (by decide)
     [[0, 1], [0]] (by decide) 20 21⟩

/-- A provider record whose `analyze` rejects with a genuine `Error`
carrying a non-empty message. -/
def provErr : Providers Unit :=
  { analyze := fun _ _ => .error (.errorObj "bad input")
    compress := fun _ _ => .ok ((), 7)
    convert := fun _ _ _ => .ok ((), 9)
    extractColors := fun _ _ => .ok ((), 11) }

/-- C6 counterexample: with a provider that rejects `analyze` with a
non-`Error` value whose `message` property is `"boom"`, `process` records
the error text `"boom"` (`reason?.message || 'Unknown error'`) while
`processWithProgress` records `"Unknown error"`
(`error instanceof Error ? … : 'Unknown error'`); the two entry points
return different `BatchResult`s on identical inputs. -/
theorem C6_entry_points_counterexample :
    (process provBoom ["x"] "analyze" ⟨none⟩ 1 0).results.map
        (fun it : ItemResult Unit => it.error) = [some "boom"] ∧
    ((processWithProgress provBoom ["x"] "analyze" ⟨none⟩ 1 [[0]] 0).1).results.map
        (fun it : ItemResult Unit => it.error) = [some "Unknown error"] ∧
    process provBoom ["x"] "analyze" ⟨none⟩ 1 0 ≠
      (processWithProgress provBoom ["x"] "analyze" ⟨none⟩ 1 [[0]] 0).1 := by
  have h1 : (process provBoom ["x"] "analyze" ⟨none⟩ 1 0).results.map
      (fun it : ItemResult Unit => it.error) = [some "boom"] := by decide
  have h2 : ((processWithProgress provBoom ["x"] "analyze" ⟨none⟩ 1 [[0]] 0).1).results.map
      (fun it : ItemResult Unit => it.error) = [some "Unknown error"] := by decide
  refine ⟨h1, h2, ?_⟩
  intro habs
  rw [habs, h2] at h1
  exact absurd h1 (by decide)

/-- C6 (amended): the two entry points return the same `BatchResult`
(identical flags, payloads, error messages, processing times, counts and
summary statistics) whenever every rejection raised for an item of the
batch is an `Error` instance with a non-empty message; when a thrown
value is not an `Error`, or is an `Error` with an empty message, the two
entry points may record different error texts (see the counterexample).
-/
theorem C6_entry_points_agree (P : Type) (prov : Providers P)
    (sources : List String) (operation : String) (options : Options)
    (c : ℕ) (hc : 1 ≤ c) (orders : List (List ℕ))
    (ho : validOrders (windows c sources) orders = true) (tt : ℕ)
    (herr : ∀ s ∈ sources, ∀ t, processSingle prov s operation options = .error t →
      ∃ m, t = .errorObj m ∧ m ≠ "") :
    process prov sources operation options c tt =
      (processWithProgress prov sources operation options c orders tt).1 := by
  have hr : process prov sources operation options c tt =
      aggregate (sources.map (settleWith processErrMsg prov operation options)) tt := by
    unfold process
    rw [runBatches_eq, windows_flatten c hc]
    rfl
  have hrp : (processWithProgress prov sources operation options c orders tt).1 =
      aggregate (sources.map (settleWith progressErrMsg prov operation options)) tt := by
    rw [processWithProgress_spec prov sources operation options c hc orders ho tt]
    rfl
  rw [hr, hrp]
  congr 1
  refine List.map_congr_left ?_
  intro s hs
  cases hps : processSingle prov s operation options with
  | ok v =>
    obtain ⟨p, d⟩ := v
    rw [settleWith_ok processErrMsg prov operation options s p d hps,
      settleWith_ok progressErrMsg prov operation options s p d hps]
  | error t =>
    obtain ⟨m, rfl, hm⟩ := herr s hs t hps
    rw [settleWith_error processErrMsg prov operation options s _ hps,
      settleWith_error progressErrMsg prov operation options s _ hps]
    have : processErrMsg (Thrown.errorObj m) = progressErrMsg (Thrown.errorObj m) := by
      unfold processErrMsg progressErrMsg Thrown.msg
      simp [hm]
    rw [this]

/-- C6 witness: a batch where the only failure is an `Error` with a
non-empty message; both entry points agree exactly. -/
theorem C6_entry_points_agree_witness :
    (1 ≤ 2 ∧ validOrders (windows 2 ["a", "b"]) [[1, 0]] = true ∧
      (∀ s ∈ ["a", "b"], ∀ t,
        processSingle provErr s "analyze" ⟨none⟩ = .error t →
          ∃ m, t = .errorObj m ∧ m ≠ "")) ∧
    process provErr ["a", "b"] "analyze" ⟨none⟩ 2 33 =
      (processWithProgress provErr ["a", "b"] "analyze" ⟨none⟩ 2 [[1, 0]] 33).1 :=
  ⟨⟨by decide, by decide, by
    intro s hs t ht
    rcases List.mem_cons.mp hs with rfl | hs'
    · cases ht
      exact ⟨"bad input", rfl, by decide⟩
    · rcases List.mem_singleton.mp hs' with rfl
      cases ht
      exact ⟨"bad input", rfl, by decide⟩⟩,
   C6_entry_points_agree Unit provErr ["a", "b"] "analyze" ⟨none⟩ 2 (by decide)
     [[1, 0]] (by decide) 33 (by
      intro s hs t ht
      rcases List.mem_cons.mp hs with rfl | hs'
      · cases ht
        exact ⟨"bad input", rfl, by decide⟩
      · rcases List.mem_singleton.mp hs' with rfl
        cases ht
        exact ⟨"bad input", rfl, by decide⟩)⟩

theorem processSingle_convert_missing (prov : Providers P) (s : String)
    (options : Options) (h : options.targetFormat = none) :
    processSingle prov s "convert" options =
      .error (.errorObj "targetFormat is required for convert operation") := by
  have hstep : processSingle prov s "convert" options =
      match options.targetFormat with
      | none => .error (.errorObj "targetFormat is required for convert operation")
      | some tf =>
        if tf = "" then
          .error (.errorObj "targetFormat is required for convert operation")
        else prov.convert s tf options := rfl
  rw [hstep, h]

theorem processSingle_unsupported (prov : Providers P) (s operation : String)
    (options : Options)
    (h : operation ∉ (["analyze", "compress", "convert", "extract_colors"] : List String)) :
    processSingle prov s operation options =
      .error (.errorObj ("Unsupported operation: " ++ operation)) := by
  simp only [List.mem_cons, List.not_mem_nil, or_false, not_or] at h
  obtain ⟨h1, h2, h3, h4⟩ := h
  rw [processSingle.eq_def]
  split
  · exact absurd rfl h1
  · exact absurd rfl h2
  · exact absurd rfl h3
  · exact absurd rfl h4
  · rfl

theorem unsupported_msg_ne_empty (operation : String) :
    ("Unsupported operation: " ++ operation) ≠ "" := by
  intro habs
  have hdata := congrArg String.data habs
  rw [String.data_append] at hdata
  simp at hdata

/-- The conclusions of claim C7: pre-validation of `convert` and the
handling of unknown operations, including provider-independence (no
collaborator is consulted in either case). -/
def C7Prop (P : Type) (prov prov' : Providers P) (sources : List String)
    (options : Options) (operation : String) (c tt : ℕ) : Prop :=
  (options.targetFormat = none →
    (∀ s, processSingle prov s "convert" options =
        .error (.errorObj "targetFormat is required for convert operation") ∧
      processSingle prov s "convert" options =
        processSingle prov' s "convert" options) ∧
    ∀ i : ℕ, ∀ s, sources[i]? = some s →
      (process prov sources "convert" options c tt).results[i]? =
        some (failureItem P s "targetFormat is required for convert operation")) ∧
  (operation ∉ (["analyze", "compress", "convert", "extract_colors"] : List String) →
    (∀ s, processSingle prov s operation options =
        .error (.errorObj ("Unsupported operation: " ++ operation)) ∧
      processSingle prov s operation options =
        processSingle prov' s operation options) ∧
    (process prov sources operation options c tt).totalProcessed = sources.length ∧
    ∀ i : ℕ, ∀ s, sources[i]? = some s →
      (process prov sources operation options c tt).results[i]? =
        some (failureItem P s ("Unsupported operation: " ++ operation)))

/-- C7: a `convert` item with no `targetFormat` fails with
`"targetFormat is required for convert operation"` without any provider
being invoked, for every source in the batch; an unknown operation makes
every item fail with `"Unsupported operation: <value>"` while the batch
call still returns normally, covering all sources. -/
theorem C7_prevalidation (P : Type) (prov prov' : Providers P)
    (sources : List String) (options : Options) (operation : String)
    (c : ℕ) (hc : 1 ≤ c) (tt : ℕ) :
    C7Prop P prov prov' sources options operation c tt := by
  have hres : ∀ op : String, (process prov sources op options c tt).results =
      sources.map (settleWith processErrMsg prov op options) := by
    intro op
    unfold process
    rw [aggregate_results, runBatches_eq, windows_flatten c hc]
    rfl
  unfold C7Prop
  constructor
  · intro htf
    have hone : ∀ s : String, processSingle prov s "convert" options =
        .error (.errorObj "targetFormat is required for convert operation") :=
      fun s => processSingle_convert_missing prov s options htf
    refine ⟨fun s => ⟨hone s, ?_⟩, ?_⟩
    · rw [hone s, processSingle_convert_missing prov' s options htf]
    · intro i s hs
      rw [hres "convert", List.getElem?_map, hs]
      simp only [Option.map_some']
      rw [settleWith_error processErrMsg prov "convert" options s _ (hone s)]
      rfl
  · intro hop
    have hone : ∀ s : String, processSingle prov s operation options =
        .error (.errorObj ("Unsupported operation: " ++ operation)) :=
      fun s => processSingle_unsupported prov s operation options hop
    have hmsg : processErrMsg (.errorObj ("Unsupported operation: " ++ operation)) =
        "Unsupported operation: " ++ operation := by
      unfold processErrMsg Thrown.msg
      simp [unsupported_msg_ne_empty operation]
    refine ⟨fun s => ⟨hone s, ?_⟩, ?_, ?_⟩
    · rw [hone s, processSingle_unsupported prov' s operation options hop]
    · show (aggregate _ _).totalProcessed = _
      rw [aggregate_totalProcessed, runBatches_eq, windows_flatten c hc,
        List.length_map]
    · intro i s hs
      rw [hres operation, List.getElem?_map, hs]
      simp only [Option.map_some']
      rw [settleWith_error processErrMsg prov operation options s _ (hone s), hmsg]
      rfl

/-- C7 witness: a convert batch without `targetFormat` and a batch with
the unknown operation `"resize"`, over two concrete providers. -/
theorem C7_prevalidation_witness :
    1 ≤ 1 ∧ C7Prop Unit provOkU provBoom ["a", "b"] ⟨none⟩ "resize" 1 5 :=
  ⟨by decide,
   C7_prevalidation Unit provOkU provBoom ["a", "b"] ⟨none⟩ "resize" 1 (by decide) 5⟩

/-- The conclusions of claim C8: `validateSources` partitions its input
in order by the priority rules of `isValidSource`, and the spec's five
scenario sources classify as stated. -/
def C8Prop (urlOk : String → Bool) (l : List String) : Prop :=
  (validateSources urlOk l).1 = l.filter (fun s => isValidSource urlOk s) ∧
  (validateSources urlOk l).2 = l.filter (fun s => !isValidSource urlOk s) ∧
  List.Sublist (validateSources urlOk l).1 l ∧
  List.Sublist (validateSources urlOk l).2 l ∧
  (validateSources urlOk l).1.length + (validateSources urlOk l).2.length = l.length ∧
  (∀ s ∈ (validateSources urlOk l).1, isValidSource urlOk s = true) ∧
  (∀ s ∈ (validateSources urlOk l).2, isValidSource urlOk s = false) ∧
  (∀ s, (strStartsWith s "http://" || strStartsWith s "https://") = true →
    isValidSource urlOk s = urlOk s) ∧
  (∀ s, (strStartsWith s "http://" || strStartsWith s "https://") = false →
    strStartsWith s "data:image/" = true → isValidSource urlOk s = true) ∧
  (∀ s, (strStartsWith s "http://" || strStartsWith s "https://") = false →
    strStartsWith s "data:image/" = false →
    isValidSource urlOk s = (strContainsChar s '.' && hasImageExt s)) ∧
  (urlOk "https://a.b/x.jpg" = true →
    isValidSource urlOk "https://a.b/x.jpg" = true) ∧
  isValidSource urlOk "not a url" = false ∧
  isValidSource urlOk "data:image/png;base64,AAAA" = true ∧
  isValidSource urlOk "photo.png" = true ∧
  isValidSource urlOk "photo.txt" = false

/-- C8: `validateSources` splits the input into the order-preserving
valid/invalid subsequences determined by the priority rules (URL prefix →
URL parser verdict; `data:image/` prefix → valid; otherwise dot plus a
known image extension, case-insensitively), throwing no error, and the
spec's scenario inputs classify as claimed (the `https` scenario under
the hypothesis that the WHATWG parser accepts that URL, which it does).
-/
theorem C8_validate_sources (urlOk : String → Bool) (l : List String) :
    C8Prop urlOk l := by
  have heq := validateSources_eq urlOk l
  have h1 : (validateSources urlOk l).1 = l.filter (fun s => isValidSource urlOk s) := by
    rw [heq]
  have h2 : (validateSources urlOk l).2 =
      l.filter (fun s => !isValidSource urlOk s) := by
    rw [heq]
  unfold C8Prop
  refine ⟨h1, h2, ?_, ?_, ?_, ?_, ?_, ?_, ?_, ?_, ?_, ?_, ?_, ?_, ?_⟩
  · rw [h1]
    exact List.filter_sublist l
  · rw [h2]
    exact List.filter_sublist l
  · rw [h1, h2]
    exact (List.length_eq_length_filter_add (fun s => isValidSource urlOk s)).symm
  · intro s hs
    rw [h1] at hs
    exact (List.mem_filter.mp hs).2
  · intro s hs
    rw [h2] at hs
    have := (List.mem_filter.mp hs).2
    simpa using this
  · intro s hs
    unfold isValidSource
    rw [if_pos (by exact hs)]
  · intro s hs1 hs2
    unfold isValidSource
    rw [if_neg (by simp [hs1]), if_pos (by exact hs2)]
  · intro s hs1 hs2
    unfold isValidSource
    rw [if_neg (by simp [hs1]), if_neg (by simp [hs2])]
  · intro hurl
    unfold isValidSource
    rw [if_pos (by decide)]
    exact hurl
  · rfl
  · rfl
  · rfl
  · rfl

/-- C8 witness: the theorem applied to a URL predicate accepting the
scenario URL and the five scenario sources together. -/
theorem C8_validate_sources_witness :
    ((fun _ : String => true) "https://a.b/x.jpg" = true) ∧
    C8Prop (fun _ : String => true)
      ["https://a.b/x.jpg", "not a url", "data:image/png;base64,AAAA",
        "photo.png", "photo.txt"] :=
  ⟨rfl,
   C8_validate_sources (fun _ : String => true)
     ["https://a.b/x.jpg", "not a url", "data:image/png;base64,AAAA",
       "photo.png", "photo.txt"]⟩

theorem aggregate_averageTime_spec (rs : List (ItemResult P)) (tt : ℕ) :
    (aggregate rs tt).summary.averageTime =
      (if (rs.filter (fun it : ItemResult P => it.success)).length = 0 then 0 else
        jsRound ((((rs.filter (fun it : ItemResult P => it.success)).map
            (fun it : ItemResult P => it.processingTime)).sum : ℚ) /
          ((rs.filter (fun it : ItemResult P => it.success)).length : ℚ))) := by
  rw [aggregate_averageTime]
  by_cases h : (rs.filter (fun it : ItemResult P => it.success)).length = 0
  · rw [if_pos h, if_neg (by omega)]
    unfold jsRound
    norm_num
  · rw [if_neg h, if_pos (by omega), Nat.cast_list_sum, List.map_map]
    rfl

/-- The conclusions of claim C9 for one run of each entry point. -/
def C9Prop (P : Type) (prov : Providers P) (sources : List String)
    (operation : String) (options : Options) (c : ℕ) (orders : List (List ℕ))
    (tt tt' : ℕ) : Prop :=
  let r := process prov sources operation options c tt
  let rp := (processWithProgress prov sources operation options c orders tt').1
  (r.summary.averageTime =
    (if (r.results.filter (fun it : ItemResult P => it.success)).length = 0 then 0 else
      jsRound ((((r.results.filter (fun it : ItemResult P => it.success)).map
          (fun it : ItemResult P => it.processingTime)).sum : ℚ) /
        ((r.results.filter (fun it : ItemResult P => it.success)).length : ℚ)))) ∧
  (r.successful = 0 → r.summary.averageTime = 0) ∧
  (∀ it ∈ r.results, it.success = false → it.processingTime = 0) ∧
  (rp.summary.averageTime =
    (if (rp.results.filter (fun it : ItemResult P => it.success)).length = 0 then 0 else
      jsRound ((((rp.results.filter (fun it : ItemResult P => it.success)).map
          (fun it : ItemResult P => it.processingTime)).sum : ℚ) /
        ((rp.results.filter (fun it : ItemResult P => it.success)).length : ℚ)))) ∧
  (rp.successful = 0 → rp.summary.averageTime = 0) ∧
  ∀ it ∈ rp.results, it.success = false → it.processingTime = 0

/-- C9: `averageTime` is the rounded mean of `processingTime` over the
successful outcomes only — failed entries, which always carry
`processingTime = 0`, are excluded from the mean — and it is `0` when
`successful = 0`, in both entry points. -/
theorem C9_average_time (P : Type) (prov : Providers P) (sources : List String)
    (operation : String) (options : Options) (c : ℕ) (hc : 1 ≤ c)
    (orders : List (List ℕ))
    (ho : validOrders (windows c sources) orders = true) (tt tt' : ℕ) :
    C9Prop P prov sources operation options c orders tt tt' := by
  have hr : process prov sources operation options c tt =
      aggregate (sources.map (settleWith processErrMsg prov operation options)) tt := by
    unfold process
    rw [runBatches_eq, windows_flatten c hc]
    rfl
  have hrp : (processWithProgress prov sources operation options c orders tt').1 =
      aggregate (sources.map (settleWith progressErrMsg prov operation options)) tt' := by
    rw [processWithProgress_spec prov sources operation options c hc orders ho tt']
    rfl
  have hzero : ∀ (em : Thrown → String) (rs : List String),
      ∀ it ∈ rs.map (settleWith em prov operation options),
        it.success = false → it.processingTime = 0 := by
    intro em rs it hit hfail
    obtain ⟨s, _, rfl⟩ := List.mem_map.mp hit
    exact settleWith_failed_time em prov operation options s hfail
  have havg : ∀ (rs : List (ItemResult P)) (t0 : ℕ),
      (aggregate rs t0).successful = 0 →
        (aggregate rs t0).summary.averageTime = 0 := by
    intro rs t0 h0
    rw [aggregate_successful] at h0
    rw [aggregate_averageTime_spec, if_pos h0]
  unfold C9Prop
  rw [hr, hrp]
  refine ⟨?_, havg _ _, ?_, ?_, havg _ _, ?_⟩
  · rw [aggregate_results]
    exact aggregate_averageTime_spec _ tt
  · rw [aggregate_results]
    exact hzero processErrMsg sources
  · rw [aggregate_results]
    exact aggregate_averageTime_spec _ tt'
  · rw [aggregate_results]
    exact hzero progressErrMsg sources

/-- C9 witness: a batch mixing one failing and two succeeding items. -/
theorem C9_average_time_witness :
    (1 ≤ 2 ∧ validOrders (windows 2 ["a", "b", "c"]) [[0, 1], [0]] = true) ∧
    C9Prop Unit provBoom ["a", "b", "c"] "compress" ⟨none⟩ 2 [[0, 1], [0]] 14 15 :=
  ⟨⟨by decide, by decide⟩,
   C9_average_time Unit provBoom ["a", "b", "c"] "compress" ⟨none⟩ 2 (by decide)
     [[0, 1], [0]] (by decide) 14 15⟩

/-- C10: with `concurrency ≥ 1` the window loop performs exactly
`⌈sources.length / concurrency⌉` iterations (the fuelled index model
`loopWindows` exits with that count, and `windows` produces that many
windows); with `concurrency ≤ 0` and non-empty sources the guard
`i < sources.length` never becomes false — the index never advances past
0 — so no amount of fuel makes the loop exit: the call does not
terminate. -/
theorem C10_termination (sources : List String) (c : ℕ) (hc : 1 ≤ c)
    (c' : ℤ) (hc' : c' ≤ 0) (hs : sources ≠ []) (fuel : ℕ) :
    ((windows c sources).length = (sources.length + c - 1) / c ∧
      loopWindows (c : ℤ) sources.length sources.length 0 =
        some ((sources.length + c - 1) / c)) ∧
    loopWindows c' sources.length fuel 0 = none := by
  refine ⟨⟨windows_length c hc sources, ?_⟩, ?_⟩
  · have hmul : sources.length * 1 ≤ sources.length * c :=
      Nat.mul_le_mul_left sources.length hc
    have h := loopWindows_pos c hc sources.length sources.length 0
      (by rw [Nat.mul_comm] at hmul; omega)
    rw [Nat.cast_zero] at h
    rw [h]
    simp
  · exact loopWindows_nonpos c' hc' sources.length
      (List.length_pos.mpr hs) fuel 0 le_rfl

/-- C10 witness: three sources with concurrency 2 give two windows;
concurrency `-1` (or any non-positive value) never exits the loop. -/
theorem C10_termination_witness :
    (1 ≤ 2 ∧ (-1 : ℤ) ≤ 0 ∧ (["a", "b", "c"] : List String) ≠ []) ∧
    (((windows 2 ["a", "b", "c"]).length = (3 + 2 - 1) / 2 ∧
      loopWindows ((2 : ℕ) : ℤ) 3 3 0 = some ((3 + 2 - 1) / 2)) ∧
     loopWindows (-1) 3 6 0 = none) := by
  refine ⟨⟨by decide, by decide, by decide⟩, ?_⟩
  exact C10_termination ["a", "b", "c"] 2 (by decide) (-1) (by decide)
    (by decide) 6
